import Mathlib

/-!
Verification of the `Signed<BITS, LIMBS>` two's-complement integer type from
`src/primitives/src/signed/int.rs`.

A `Signed` value is one `ruint::Uint<BITS, LIMBS>` whose bit pattern is read as
two's complement.  We embed a `Uint` as a natural number `val < 2 ^ w` (`w` is
the bit width `BITS`); the limb array is recovered arithmetically.  Strings are
embedded as `List Char`.  Fallible operations return `Option`/`Except`; a Rust
panic is `Option.none`.

The `Sign` type, the `utils` helpers (`sign_bit`, `twos_complement`), the error
conversion in `errors.rs` and the `ruint` word type are repository or external
code that is not under `src/`; those definitions are modelled from the spec (and
pinned by the tests inside `int.rs`), as marked in their doc comments.
-/

namespace Alloy

/-- Modelled from the spec: `Sign` (spec §3), the two-valued type
`Positive | Negative`; its definition lives outside `src/`. -/
inductive Sign : Type where
  | Positive : Sign
  | Negative : Sign
  deriving DecidableEq

/-- Number of 64-bit limbs backing a `BITS`-bit word: `ceil(BITS / 64)`
(spec §6: limb array length = `ceil(BITS/64)`). -/
def nlimbs (w : Nat) : Nat := (w + 63) / 64

/-- Limb `i` (least-significant first) of the bit pattern `val` (spec §6). -/
def limb (val i : Nat) : Nat := val / 2 ^ (64 * i) % 2 ^ 64

/-- Modelled from the spec: `sign_bit` from the `utils` module (not under
`src/`) — "the sign-bit mask for `BITS`" (spec §4.1), i.e. bit `BITS - 1`
positioned inside the highest limb. -/
def signBitMask (w : Nat) : Nat := 2 ^ ((w - 1) % 64)

/-- `Signed::sign` (`int.rs` 215-227): Negative iff the last limb is `≥` the
sign-bit mask; a type with no limbs (`BITS = 0`) is always Positive. -/
def sign (w val : Nat) : Sign :=
  if nlimbs w = 0 then Sign.Positive
  else if signBitMask w ≤ limb val (nlimbs w - 1) then Sign.Negative
  else Sign.Positive

/-- Modelled from the spec: `twos_complement` from the `utils` module (not under
`src/`): `two's_complement(x) = (~x) + 1` taken modulo `2^BITS` (spec §4.1). -/
def twos_complement (w x : Nat) : Nat := (2 ^ w - 1 - x % 2 ^ w + 1) % 2 ^ w

/-- `Signed::into_sign_and_abs` (`int.rs` 420-429). -/
def into_sign_and_abs (w val : Nat) : Sign × Nat :=
  let sg := sign w val
  let abs := match sg with
    | Sign.Positive => val
    | Sign.Negative => twos_complement w val
  (sg, abs)

/-- Modelled from the spec: `unsigned_abs` (defined outside `src/`), the
magnitude half of the §4.1 decomposition: `into_sign_and_abs(self).1`. -/
def unsigned_abs (w val : Nat) : Nat := (into_sign_and_abs w val).2

/-- `Signed::overflowing_from_sign_and_abs` (`int.rs` 351-361). -/
def overflowing_from_sign_and_abs (w : Nat) (sg : Sign) (abs : Nat) : Nat × Bool :=
  let value := match sg with
    | Sign.Positive => abs
    | Sign.Negative => twos_complement w abs
  (value, decide (sign w value ≠ sg))

/-- `Signed::checked_from_sign_and_abs` (`int.rs` 363-373). -/
def checked_from_sign_and_abs (w : Nat) (sg : Sign) (abs : Nat) : Option Nat :=
  let r := overflowing_from_sign_and_abs w sg abs
  if r.2 then none else some r.1

/-- `Signed::is_zero` (`int.rs` 238-243): bit-pattern equality with `ZERO`. -/
def is_zero (val : Nat) : Bool := decide (val = 0)

/-- `Signed::is_positive` (`int.rs` 245-250). -/
def is_positive (w val : Nat) : Bool :=
  !(is_zero val) && (match sign w val with
    | Sign.Positive => true
    | Sign.Negative => false)

/-- `Signed::is_negative` (`int.rs` 252-257). -/
def is_negative (w val : Nat) : Bool :=
  match sign w val with
  | Sign.Negative => true
  | Sign.Positive => false

/-- Fuel-driven population count over the binary digits of `n`
(`popcountAux n n` is exact because `n / 2` strictly decreases). -/
def popcountAux : Nat → Nat → Nat
  | 0, _ => 0
  | fuel + 1, n => if n = 0 then 0 else n % 2 + popcountAux fuel (n / 2)

/-- Modelled from the spec: `ruint`'s `count_ones` (Word contract, spec §6) —
the number of set bits of the pattern. -/
def count_ones (n : Nat) : Nat := popcountAux n n

/-- Modelled from the spec: `ruint`'s `count_zeros` (Word contract, spec §6) —
the number of clear bits among the `BITS` bits, i.e. `BITS - count_ones`. -/
def count_zeros (w n : Nat) : Nat := w - count_ones n

/-- Fuel-driven trailing-zero count: `tzAux fuel w n` counts trailing zero bits
of `n`, returning the full remaining width `w` when `n = 0`. -/
def tzAux : Nat → Nat → Nat → Nat
  | 0, w, _ => w
  | fuel + 1, w, n =>
    if n = 0 then w
    else if n % 2 = 1 then 0
    else tzAux fuel (w - 1) (n / 2) + 1

/-- Modelled from the spec: `ruint`'s `trailing_zeros` (Word contract, spec §6)
— the number of trailing zero bits, `BITS` for the zero pattern. -/
def trailing_zeros (w n : Nat) : Nat := tzAux n w n

/-- Fuel-driven binary length: `bitLenAux n n` is the position of the highest
set bit plus one, `0` for `n = 0`. -/
def bitLenAux : Nat → Nat → Nat
  | 0, _ => 0
  | fuel + 1, n => if n = 0 then 0 else bitLenAux fuel (n / 2) + 1

/-- Modelled from the spec: `ruint`'s `bit_len` (Word contract, spec §6) — the
minimal number of bits representing the value as an unsigned integer. -/
def bit_len (n : Nat) : Nat := bitLenAux n n

/-- `Signed::bits` (`int.rs` 321-349): minimal signed bit length, computed from
the unsigned bit length of the absolute value plus the
`count_zeros == trailing_zeros` test for zero / negative powers of two. -/
def bits (w val : Nat) : Nat :=
  let unsigned := unsigned_abs w val
  let unsignedBits := bit_len unsigned
  if count_zeros w val = trailing_zeros w val then unsignedBits else unsignedBits + 1

/-- Limb access `as_limbs()[i]` with the bounds check made explicit: `none` is
the Rust out-of-bounds panic. -/
def limbAt (w val i : Nat) : Option Nat :=
  if i < nlimbs w then some (limb val i) else none

/-- Byte `k` (big-endian, `k < 8`) of a 64-bit limb, as `limb.to_be_bytes()[k]`. -/
def beByte (l k : Nat) : Nat := l / 2 ^ (8 * (7 - k)) % 2 ^ 8

/-- `Signed::byte` (`int.rs` 303-319): the source matches the index ranges
`0..=7`, `8..=15`, `16..=23`, `24..=31` onto `limbs[3]`, `limbs[2]`,
`limbs[1]`, `limbs[0]` and panics (`none`) otherwise; the limb accesses
themselves carry the array bounds check. -/
def byte (w val index : Nat) : Option Nat :=
  if index ≤ 7 then (limbAt w val 3).map (fun l => beByte l index)
  else if index ≤ 15 then (limbAt w val 2).map (fun l => beByte l (index - 8))
  else if index ≤ 23 then (limbAt w val 1).map (fun l => beByte l (index - 16))
  else if index ≤ 31 then (limbAt w val 0).map (fun l => beByte l (index - 24))
  else none

/-- Modelled from the spec: the word parser's error kind (spec §6: the radix
parser "reports an error position/kind on invalid digits"; magnitude overflow
is its other failure, exercised by the `int.rs` tests). -/
inductive WordParseError : Type where
  | InvalidDigit : WordParseError
  | Overflow : WordParseError
  deriving DecidableEq

/-- `ParseSignedError` (spec §3): wraps a word-parser error or reports overflow. -/
inductive ParseSignedError : Type where
  | DigitOrBase : WordParseError → ParseSignedError
  | IntegerOverflow : ParseSignedError
  deriving DecidableEq

/-- Modelled from the spec: the `From<ruint::ParseError>` conversion in
`errors.rs` (not under `src/`) applied by the `?` operator in `from_dec_str` /
`from_hex_str`.  Digit errors stay wrapped (spec §4.3: "any parser failure on
the digit string is wrapped as DigitOrBase"); a parser magnitude overflow
surfaces as `IntegerOverflow`, as pinned by the `int.rs` test that expects
`IntegerOverflow` for the decimal string `"1"` followed by `Word::MAX`. -/
def convertErr : WordParseError → ParseSignedError
  | WordParseError.Overflow => ParseSignedError.IntegerOverflow
  | WordParseError.InvalidDigit => ParseSignedError.DigitOrBase WordParseError.InvalidDigit

/-- Modelled from the spec: the word parser's digit table — `0-9`, `a-z`, `A-Z`
map to `0..35` (the `int.rs` test expects `InvalidDigit(18, 10)` for `'i'`,
i.e. letters are valued before the base check); everything else is invalid. -/
def digitVal (c : Char) : Option Nat :=
  if 48 ≤ c.toNat ∧ c.toNat ≤ 57 then some (c.toNat - 48)
  else if 97 ≤ c.toNat ∧ c.toNat ≤ 122 then some (c.toNat - 87)
  else if 65 ≤ c.toNat ∧ c.toNat ≤ 90 then some (c.toNat - 55)
  else none

/-- Modelled from the spec: one step of the word radix parser — underscores are
skipped (spec §4.3), a digit must be below the radix, and the accumulator must
stay below `2 ^ BITS` or the parse fails with `Overflow` (spec §6). -/
def fromStrRadixAux (w radix : Nat) : List Char → Nat → Except WordParseError Nat
  | [], acc => Except.ok acc
  | c :: rest, acc =>
    if c = '_' then fromStrRadixAux w radix rest acc
    else match digitVal c with
      | none => Except.error WordParseError.InvalidDigit
      | some d =>
        if d < radix then
          if acc * radix + d < 2 ^ w then fromStrRadixAux w radix rest (acc * radix + d)
          else Except.error WordParseError.Overflow
        else Except.error WordParseError.InvalidDigit

/-- Modelled from the spec: `Uint::from_str_radix` (Word contract, spec §6). -/
def from_str_radix (w radix : Nat) (s : List Char) : Except WordParseError Nat :=
  fromStrRadixAux w radix s 0

/-- The leading-sign split shared by `from_dec_str` and `from_hex_str`
(`int.rs` 377-381 and 396-400): an optional `+`/`-` first character, defaulting
to Positive. -/
def splitSign : List Char → Sign × List Char
  | [] => (Sign.Positive, [])
  | c :: rest =>
    if c = '+' then (Sign.Positive, rest)
    else if c = '-' then (Sign.Negative, rest)
    else (Sign.Positive, c :: rest)

/-- `value.strip_prefix("0x").unwrap_or(value)` (`int.rs` 402). -/
def strip0x : List Char → List Char
  | c1 :: c2 :: rest => if c1 = '0' ∧ c2 = 'x' then rest else c1 :: c2 :: rest
  | s => s

/-- `Signed::from_dec_str` (`int.rs` 375-384). -/
def from_dec_str (w : Nat) (s : List Char) : Except ParseSignedError Nat :=
  let sr := splitSign s
  match from_str_radix w 10 sr.2 with
  | Except.error e => Except.error (convertErr e)
  | Except.ok abs =>
    match checked_from_sign_and_abs w sr.1 abs with
    | some v => Except.ok v
    | none => Except.error ParseSignedError.IntegerOverflow

/-- `Signed::from_hex_str` (`int.rs` 394-410), abstracted over the word parser
so that the early length guard can be stated independently of it: after the
sign split and `0x` strip, a remainder longer than 64 characters is rejected
as `IntegerOverflow` before the parser runs. -/
def from_hex_str_with (w : Nat) (p : List Char → Except WordParseError Nat)
    (s : List Char) : Except ParseSignedError Nat :=
  let sr := splitSign s
  let v := strip0x sr.2
  if 64 < v.length then Except.error ParseSignedError.IntegerOverflow
  else match p v with
  | Except.error e => Except.error (convertErr e)
  | Except.ok abs =>
    match checked_from_sign_and_abs w sr.1 abs with
    | some r => Except.ok r
    | none => Except.error ParseSignedError.IntegerOverflow

/-- `Signed::from_hex_str` (`int.rs` 394-410): the guard composed with the
radix-16 word parser. -/
def from_hex_str (w : Nat) (s : List Char) : Except ParseSignedError Nat :=
  from_hex_str_with w (from_str_radix w 16) s

/-- The lower-case digit characters used by the word formatter. -/
def digitChar (d : Nat) : Char :=
  if d < 10 then Char.ofNat (48 + d) else Char.ofNat (87 + d)

/-- Fuel-driven digit rendering, most-significant first (`natDigitsAux r n n`
is exact because `n / r` strictly decreases for `r ≥ 2`). -/
def natDigitsAux (r : Nat) : Nat → Nat → List Char
  | 0, _ => []
  | fuel + 1, n =>
    if n = 0 then [] else natDigitsAux r fuel (n / r) ++ [digitChar (n % r)]

/-- Modelled from the spec: the word formatter (spec §4.3: the "unsigned
magnitude rendered by the Word formatter") — standard positional digits with
`"0"` for zero, lower-case for hex. -/
def natToChars (r n : Nat) : List Char :=
  if n = 0 then ['0'] else natDigitsAux r n n

/-- Modelled from the spec: the `Display` of `Sign` (spec §3): empty for
Positive, `"-"` for Negative. -/
def signChars : Sign → List Char
  | Sign.Positive => []
  | Sign.Negative => ['-']

/-- `Signed::to_dec_string` (`int.rs` 386-392): sign string then the decimal
magnitude. -/
def to_dec_string (w val : Nat) : List Char :=
  signChars (sign w val) ++ natToChars 10 (unsigned_abs w val)

/-- `Signed::to_hex_string` (`int.rs` 412-418): sign string, `0x`, then the
lower-hex magnitude. -/
def to_hex_string (w val : Nat) : List Char :=
  signChars (sign w val) ++ '0' :: 'x' :: natToChars 16 (unsigned_abs w val)

/-- Hex-digit test used to phrase the length guard of `from_hex_str` in terms
of the digit part of the input. -/
def isHexDigit (c : Char) : Bool :=
  match digitVal c with
  | some d => decide (d < 16)
  | none => false

/-! ### Basic facts about the sign and the two's complement -/

theorem pow2_pos (w : Nat) : 0 < 2 ^ w := Nat.pow_pos (by decide)

theorem sign_width_zero (val : Nat) : sign 0 val = Sign.Positive := rfl

/-- The top-limb comparison in `sign` is exactly the sign-bit test: for an
in-range pattern, the sign is Negative iff `2 ^ (BITS - 1) ≤ val`. -/
theorem sign_eq_ite (w val : Nat) (hw : w ≠ 0) (h : val < 2 ^ w) :
    sign w val = if 2 ^ (w - 1) ≤ val then Sign.Negative else Sign.Positive := by
  have hn : nlimbs w = (w - 1) / 64 + 1 := by unfold nlimbs; omega
  have hsum : (w - 1) % 64 + 64 * ((w - 1) / 64) = w - 1 := Nat.mod_add_div (w - 1) 64
  have hklt : val / 2 ^ (64 * ((w - 1) / 64)) < 2 ^ 64 := by
    rw [Nat.div_lt_iff_lt_mul (pow2_pos _)]
    calc val < 2 ^ w := h
      _ ≤ 2 ^ (64 + 64 * ((w - 1) / 64)) := Nat.pow_le_pow_right (by decide) (by omega)
      _ = 2 ^ 64 * 2 ^ (64 * ((w - 1) / 64)) := Nat.pow_add 2 _ _
  have hcond : (signBitMask w ≤ limb val ((w - 1) / 64)) ↔ 2 ^ (w - 1) ≤ val := by
    unfold signBitMask limb
    rw [Nat.mod_eq_of_lt hklt, Nat.le_div_iff_mul_le (pow2_pos _), ← Nat.pow_add, hsum]
  unfold sign
  rw [hn, if_neg (by omega : ¬((w - 1) / 64 + 1 = 0)), Nat.add_sub_cancel]
  exact if_congr hcond rfl rfl

theorem sign_neg_iff (w val : Nat) (h : val < 2 ^ w) :
    sign w val = Sign.Negative ↔ w ≠ 0 ∧ 2 ^ (w - 1) ≤ val := by
  by_cases hw : w = 0
  · subst hw
    simp [sign_width_zero]
  · rw [sign_eq_ite w val hw h]
    by_cases hv : 2 ^ (w - 1) ≤ val
    · simp [hv, hw]
    · simp [hv]

theorem sign_zero (w : Nat) : sign w 0 = Sign.Positive := by
  by_cases hw : w = 0
  · subst hw; rfl
  · rw [sign_eq_ite w 0 hw (pow2_pos w), if_neg]
    have := pow2_pos (w - 1)
    omega

theorem twos_complement_lt (w x : Nat) : twos_complement w x < 2 ^ w :=
  Nat.mod_lt _ (pow2_pos w)

theorem twos_complement_zero (w : Nat) : twos_complement w 0 = 0 := by
  unfold twos_complement
  have h := pow2_pos w
  rw [Nat.zero_mod]
  have h2 : 2 ^ w - 1 - 0 + 1 = 2 ^ w := by omega
  rw [h2, Nat.mod_self]

theorem twos_complement_eq (w x : Nat) (h0 : 0 < x) (h : x < 2 ^ w) :
    twos_complement w x = 2 ^ w - x := by
  unfold twos_complement
  rw [Nat.mod_eq_of_lt h]
  have h2 : 2 ^ w - 1 - x + 1 = 2 ^ w - x := by omega
  rw [h2, Nat.mod_eq_of_lt (by omega)]

theorem into_sign_and_abs_pos (w val : Nat) (hs : sign w val = Sign.Positive) :
    into_sign_and_abs w val = (Sign.Positive, val) := by
  unfold into_sign_and_abs
  rw [hs]

theorem into_sign_and_abs_neg (w val : Nat) (hs : sign w val = Sign.Negative) :
    into_sign_and_abs w val = (Sign.Negative, twos_complement w val) := by
  unfold into_sign_and_abs
  rw [hs]

/-- Rebuilding a value from its own sign/magnitude decomposition restores it
and never reports overflow. -/
theorem rebuild_of_into (w val : Nat) (h : val < 2 ^ w) :
    overflowing_from_sign_and_abs w (into_sign_and_abs w val).1 (into_sign_and_abs w val).2
      = (val, false) := by
  cases hs : sign w val with
  | Positive =>
    rw [into_sign_and_abs_pos w val hs]
    simp [overflowing_from_sign_and_abs, hs]
  | Negative =>
    obtain ⟨hw, hv⟩ := (sign_neg_iff w val h).mp hs
    have hp : 0 < val := lt_of_lt_of_le (pow2_pos (w - 1)) hv
    have h1 : twos_complement w val = 2 ^ w - val := twos_complement_eq w val hp h
    have h2 : twos_complement w (2 ^ w - val) = val := by
      rw [twos_complement_eq w _ (by omega) (by omega)]
      omega
    rw [into_sign_and_abs_neg w val hs]
    simp [overflowing_from_sign_and_abs, h1, h2, hs]

/-- The magnitude produced by `into_sign_and_abs` is itself in range. -/
theorem unsigned_abs_lt (w val : Nat) (h : val < 2 ^ w) : unsigned_abs w val < 2 ^ w := by
  unfold unsigned_abs into_sign_and_abs
  cases hs : sign w val with
  | Positive => simpa [hs] using h
  | Negative => simpa [hs] using twos_complement_lt w val

/-! ### Claim C1 -/

/-- C1, counterexample: the claim states that `(Negative, abs = 0)` is *not*
reported as an overflow, but `overflowing_from_sign_and_abs(Negative, 0)` (at
`BITS = 8`) builds the value `0`, whose computed sign is Positive, so the
overflow flag is `true`. -/
theorem claim1_counterexample :
    overflowing_from_sign_and_abs 8 Sign.Negative 0 = (0, true) := rfl

/-- C1 (amended): `overflowing_from_sign_and_abs(sign, abs)` returns the value
built as `abs` when sign is Positive and as `two's_complement(abs)` when sign
is Negative, and its overflow flag is true exactly when the computed sign of
the built value disagrees with the requested sign; in particular
`(Negative, abs = 0)` IS reported as an overflow (the built value `0` computes
as Positive), and `(Positive, abs with the sign bit set)` is as well. -/
theorem claim1_overflowing_from_sign_and_abs (w : Nat) (sg : Sign) (abs : Nat)
    (hw : 1 ≤ w) (habs : abs < 2 ^ w) :
    ((overflowing_from_sign_and_abs w sg abs).1 =
      match sg with
      | Sign.Positive => abs
      | Sign.Negative => twos_complement w abs)
    ∧ ((overflowing_from_sign_and_abs w sg abs).2 = true ↔
        sign w (overflowing_from_sign_and_abs w sg abs).1 ≠ sg)
    ∧ (overflowing_from_sign_and_abs w Sign.Negative 0).2 = true
    ∧ (2 ^ (w - 1) ≤ abs → (overflowing_from_sign_and_abs w Sign.Positive abs).2 = true) := by
  refine ⟨rfl, ?_, ?_, ?_⟩
  · simp [overflowing_from_sign_and_abs]
  · simp [overflowing_from_sign_and_abs, twos_complement_zero, sign_zero]
  · intro hv
    have hneg : sign w abs = Sign.Negative := (sign_neg_iff w abs habs).mpr ⟨by omega, hv⟩
    simp [overflowing_from_sign_and_abs, hneg]

theorem claim1_witness :
    1 ≤ 8 ∧ (128 : Nat) < 2 ^ 8 ∧ 2 ^ (8 - 1) ≤ 128 ∧
      (overflowing_from_sign_and_abs 8 Sign.Positive 128).2 = true :=
  ⟨by decide, by decide, by decide,
    (claim1_overflowing_from_sign_and_abs 8 Sign.Positive 128 (by decide)
      (by decide)).2.2.2 (by decide)⟩

/-! ### Claim C2 -/

/-- C2: for every `Signed` value (any `BITS`), decomposing with
`into_sign_and_abs` and rebuilding with `overflowing_from_sign_and_abs` yields
exactly `(x, false)` — the round trip restores the value and never reports
overflow (this covers `x = MIN`, i.e. `val = 2 ^ (BITS - 1)`, and `x = ZERO`). -/
theorem claim2_round_trip (w val : Nat) (h : val < 2 ^ w) :
    overflowing_from_sign_and_abs w (into_sign_and_abs w val).1 (into_sign_and_abs w val).2
      = (val, false) :=
  rebuild_of_into w val h

theorem claim2_witness :
    (128 : Nat) < 2 ^ 8 ∧
      overflowing_from_sign_and_abs 8 (into_sign_and_abs 8 128).1 (into_sign_and_abs 8 128).2
        = (128, false) :=
  ⟨by decide, claim2_round_trip 8 128 (by decide)⟩

/-! ### Claim C6 -/

/-- C6: the claim states that `byte(index)` succeeds exactly when
`index < BITS / 8` for *every* bit width.  The code hard-codes the four-limb
(256-bit) layout: at `BITS = 128` (two limbs) every index in `0..=7` reads
`limbs[3]`, which is out of bounds, so `byte(0)` panics (`none`) even though
`0 < 128 / 8` — the code contradicts its own documentation ("Panics if index
exceeds the byte width of the number").  This theorem exhibits the failure. -/
theorem claim6_byte_panics_in_range (val : Nat) :
    byte 128 val 0 = none ∧ 0 < 128 / 8 :=
  ⟨rfl, by decide⟩

/-! ### Claim C9 -/

/-- C9: for every valid `BITS`, the zero value satisfies `is_zero`, fails
`is_positive`, fails `is_negative`, and its `sign` is Positive; and for
zero-bit types `sign` always reports Positive. -/
theorem claim9_zero_predicates (w : Nat) :
    is_zero 0 = true ∧ is_positive w 0 = false ∧ is_negative w 0 = false
      ∧ sign w 0 = Sign.Positive ∧ ∀ val, sign 0 val = Sign.Positive := by
  refine ⟨rfl, ?_, ?_, sign_zero w, fun val => sign_width_zero val⟩
  · simp [is_positive, is_zero]
  · simp [is_negative, sign_zero]

/-! ### Digit characters and the radix parser -/

theorem digitVal_digitChar : ∀ d, d < 16 → digitVal (digitChar d) = some d := by decide

theorem digitChar_ne_underscore : ∀ d, d < 16 → digitChar d ≠ '_' := by decide

theorem digitChar_ne_plus : ∀ d, d < 16 → digitChar d ≠ '+' := by decide

theorem digitChar_ne_minus : ∀ d, d < 16 → digitChar d ≠ '-' := by decide

/-- Unfolding `from_dec_str` with the let-bindings resolved. -/
theorem from_dec_str_eq (w : Nat) (s : List Char) :
    from_dec_str w s =
      match from_str_radix w 10 (splitSign s).2 with
      | Except.error e => Except.error (convertErr e)
      | Except.ok abs =>
        match checked_from_sign_and_abs w (splitSign s).1 abs with
        | some v => Except.ok v
        | none => Except.error ParseSignedError.IntegerOverflow := rfl

/-- Unfolding `from_hex_str_with` with the let-bindings resolved. -/
theorem from_hex_str_with_eq (w : Nat) (p : List Char → Except WordParseError Nat)
    (s : List Char) :
    from_hex_str_with w p s =
      if 64 < (strip0x (splitSign s).2).length then
        Except.error ParseSignedError.IntegerOverflow
      else match p (strip0x (splitSign s).2) with
      | Except.error e => Except.error (convertErr e)
      | Except.ok abs =>
        match checked_from_sign_and_abs w (splitSign s).1 abs with
        | some r => Except.ok r
        | none => Except.error ParseSignedError.IntegerOverflow := rfl

/-- The radix parser processes an appended digit list sequentially. -/
theorem fromStrRadixAux_append (w r : Nat) :
    ∀ (l1 l2 : List Char) (acc : Nat),
      fromStrRadixAux w r (l1 ++ l2) acc =
        (match fromStrRadixAux w r l1 acc with
         | Except.ok m => fromStrRadixAux w r l2 m
         | Except.error e => Except.error e) := by
  intro l1
  induction l1 with
  | nil => intro l2 acc; rfl
  | cons c t ih =>
    intro l2 acc
    simp only [List.cons_append, fromStrRadixAux]
    by_cases hc : c = '_'
    · rw [if_pos hc, if_pos hc]
      exact ih l2 acc
    · rw [if_neg hc, if_neg hc]
      cases hd : digitVal c with
      | none => rfl
      | some d =>
        simp only []
        by_cases h1 : d < r
        · rw [if_pos h1, if_pos h1]
          by_cases h2 : acc * r + d < 2 ^ w
          · rw [if_pos h2, if_pos h2]
            exact ih l2 _
          · rw [if_neg h2, if_neg h2]
        · rw [if_neg h1, if_neg h1]

/-- The radix parser inverts the digit rendering: parsing the digits of `n`
on top of accumulator `acc` yields `acc * r ^ len + n`, as long as that value
stays in range. -/
theorem parse_digitsAux (w r : Nat) (hr2 : 2 ≤ r) (hr16 : r ≤ 16) :
    ∀ fuel n acc, n ≤ fuel →
      acc * r ^ (natDigitsAux r fuel n).length + n < 2 ^ w →
      fromStrRadixAux w r (natDigitsAux r fuel n) acc
        = Except.ok (acc * r ^ (natDigitsAux r fuel n).length + n) := by
  intro fuel
  induction fuel with
  | zero =>
    intro n acc hn hbound
    have hn0 : n = 0 := by omega
    subst hn0
    simp [natDigitsAux, fromStrRadixAux]
  | succ f ih =>
    intro n acc hn hbound
    by_cases hn0 : n = 0
    · subst hn0
      simp [natDigitsAux, fromStrRadixAux]
    · have hshape : natDigitsAux r (f + 1) n
          = natDigitsAux r f (n / r) ++ [digitChar (n % r)] := by
        simp only [natDigitsAux]
        rw [if_neg hn0]
      have hqlt : n / r < n := Nat.div_lt_self (Nat.pos_of_ne_zero hn0) (by omega)
      have hq : n / r ≤ f := by omega
      rw [hshape] at hbound ⊢
      rw [List.length_append, List.length_singleton] at hbound ⊢
      have hmod : n % r < r := Nat.mod_lt n (by omega)
      have hdm : r * (n / r) + n % r = n := Nat.div_add_mod n r
      have hV : acc * r ^ ((natDigitsAux r f (n / r)).length + 1) + n
          = (acc * r ^ (natDigitsAux r f (n / r)).length + n / r) * r + n % r := by
        calc acc * r ^ ((natDigitsAux r f (n / r)).length + 1) + n
            = acc * (r ^ (natDigitsAux r f (n / r)).length * r) + n := by
              rw [pow_succ]
          _ = acc * r ^ (natDigitsAux r f (n / r)).length * r
                + (r * (n / r) + n % r) := by rw [hdm]; ring
          _ = (acc * r ^ (natDigitsAux r f (n / r)).length + n / r) * r + n % r := by
              ring
      have hM : acc * r ^ (natDigitsAux r f (n / r)).length + n / r < 2 ^ w := by
        have h1 : acc * r ^ (natDigitsAux r f (n / r)).length + n / r
            ≤ (acc * r ^ (natDigitsAux r f (n / r)).length + n / r) * r :=
          Nat.le_mul_of_pos_right _ (by omega)
        omega
      rw [fromStrRadixAux_append, ih (n / r) acc hq hM]
      simp only []
      have hd16 : n % r < 16 := by omega
      have hne : digitChar (n % r) ≠ '_' := digitChar_ne_underscore _ hd16
      have hdv : digitVal (digitChar (n % r)) = some (n % r) := digitVal_digitChar _ hd16
      rw [hV] at hbound
      simp only [fromStrRadixAux]
      rw [if_neg hne, hdv]
      simp only []
      rw [if_pos hmod, if_pos hbound, hV]

/-- Parsing the rendering of `n` in radix `r` returns `n` when it fits. -/
theorem parse_natToChars (w r n : Nat) (hr2 : 2 ≤ r) (hr16 : r ≤ 16) (h : n < 2 ^ w) :
    from_str_radix w r (natToChars r n) = Except.ok n := by
  unfold natToChars from_str_radix
  by_cases hn : n = 0
  · subst hn
    rw [if_pos rfl]
    show (if (0:Nat) < r then
            (if 0 * r + 0 < 2 ^ w then fromStrRadixAux w r [] (0 * r + 0)
             else Except.error WordParseError.Overflow)
          else Except.error WordParseError.InvalidDigit) = Except.ok 0
    have h0 := pow2_pos w
    rw [if_pos (show (0:Nat) < r by omega), if_pos (show 0 * r + 0 < 2 ^ w by omega)]
    show Except.ok (0 * r + 0) = Except.ok 0
    rw [Nat.zero_mul, Nat.zero_add]
  · rw [if_neg hn]
    have hb : 0 * r ^ (natDigitsAux r n n).length + n < 2 ^ w := by
      rw [Nat.zero_mul, Nat.zero_add]
      exact h
    have hp := parse_digitsAux w r hr2 hr16 n n 0 (Nat.le_refl n) hb
    rw [Nat.zero_mul, Nat.zero_add] at hp
    exact hp

theorem natDigitsAux_mem (r : Nat) (hr2 : 2 ≤ r) (hr : r ≤ 16) :
    ∀ fuel n c, c ∈ natDigitsAux r fuel n → ∃ d, d < 16 ∧ c = digitChar d := by
  intro fuel
  induction fuel with
  | zero => intro n c hc; simp [natDigitsAux] at hc
  | succ f ih =>
    intro n c hc
    by_cases hn : n = 0
    · simp [natDigitsAux, hn] at hc
    · simp only [natDigitsAux] at hc
      rw [if_neg hn] at hc
      rcases List.mem_append.mp hc with h1 | h2
      · exact ih _ _ h1
      · have hmlt := Nat.mod_lt n (show 0 < r by omega)
        refine ⟨n % r, by omega, ?_⟩
        simpa using h2

theorem natToChars_no_sign (r n : Nat) (hr2 : 2 ≤ r) (hr : r ≤ 16) :
    ∀ c ∈ natToChars r n, c ≠ '+' ∧ c ≠ '-' := by
  intro c hc
  unfold natToChars at hc
  by_cases hn : n = 0
  · rw [if_pos hn] at hc
    simp at hc
    subst hc
    exact ⟨by decide, by decide⟩
  · rw [if_neg hn] at hc
    obtain ⟨d, hd, rfl⟩ := natDigitsAux_mem r hr2 hr n n c hc
    exact ⟨digitChar_ne_plus d hd, digitChar_ne_minus d hd⟩

theorem splitSign_no_sign (l : List Char) (h : ∀ c ∈ l, c ≠ '+' ∧ c ≠ '-') :
    splitSign l = (Sign.Positive, l) := by
  cases l with
  | nil => rfl
  | cons c t =>
    obtain ⟨h1, h2⟩ := h c (by simp)
    simp [splitSign, h1, h2]

theorem strip0x_prefixed (l : List Char) : strip0x ('0' :: 'x' :: l) = l := by
  simp [strip0x]

/-- `checked_from_sign_and_abs` restores a value from its own decomposition. -/
theorem checked_rebuild (w val : Nat) (h : val < 2 ^ w) :
    checked_from_sign_and_abs w (into_sign_and_abs w val).1 (into_sign_and_abs w val).2
      = some val := by
  unfold checked_from_sign_and_abs
  rw [rebuild_of_into w val h]
  rfl

/-- A value below `16 ^ k` renders to at most `k` radix-16 digits. -/
theorem natDigitsAux_length_le :
    ∀ fuel n k, n ≤ fuel → n < 16 ^ k → (natDigitsAux 16 fuel n).length ≤ k := by
  intro fuel
  induction fuel with
  | zero => intro n k _ _; simp [natDigitsAux]
  | succ f ih =>
    intro n k hn hk
    by_cases hn0 : n = 0
    · simp [natDigitsAux, hn0]
    · simp only [natDigitsAux]
      rw [if_neg hn0, List.length_append, List.length_singleton]
      have hk0 : k ≠ 0 := by
        intro h0
        subst h0
        simp at hk
        omega
      have h16 : 16 ^ k = 16 ^ (k - 1) * 16 := by
        conv_lhs => rw [show k = (k - 1) + 1 by omega]
        rw [pow_succ]
      have hq : n / 16 < 16 ^ (k - 1) := by
        rw [Nat.div_lt_iff_lt_mul (by decide : (0:Nat) < 16)]
        omega
      have := ih (n / 16) (k - 1) (by omega) hq
      omega

theorem natToChars_length_le (n : Nat) (h : n < 16 ^ 64) :
    (natToChars 16 n).length ≤ 64 := by
  unfold natToChars
  by_cases hn : n = 0
  · rw [if_pos hn]
    decide
  · rw [if_neg hn]
    exact natDigitsAux_length_le n n 64 (Nat.le_refl n) h

theorem splitSign_minus (l : List Char) : splitSign ('-' :: l) = (Sign.Negative, l) := by
  simp [splitSign]

/-! ### Claim C3 -/

/-- C3: for every `Signed` value (any `BITS`), parsing the decimal rendering
returns the value back: `from_dec_str (to_dec_string x) = Ok x`.  The
quantification over all in-range `val` covers `MIN`, `ZERO` and `MAX`. -/
theorem claim3_dec_round_trip (w val : Nat) (h : val < 2 ^ w) :
    from_dec_str w (to_dec_string w val) = Except.ok val := by
  cases hs : sign w val with
  | Positive =>
    have habs : unsigned_abs w val = val := by
      unfold unsigned_abs
      rw [into_sign_and_abs_pos w val hs]
    have hsplit : splitSign (natToChars 10 val) = (Sign.Positive, natToChars 10 val) :=
      splitSign_no_sign _ (natToChars_no_sign 10 val (by decide) (by decide))
    have hparse := parse_natToChars w 10 val (by decide) (by decide) h
    have hch : checked_from_sign_and_abs w Sign.Positive val = some val := by
      have h1 := checked_rebuild w val h
      rw [into_sign_and_abs_pos w val hs] at h1
      exact h1
    unfold to_dec_string
    rw [hs, habs]
    simp only [signChars, List.nil_append]
    rw [from_dec_str_eq]
    rw [hsplit]
    simp only [hparse, hch]
  | Negative =>
    have habs : unsigned_abs w val = twos_complement w val := by
      unfold unsigned_abs
      rw [into_sign_and_abs_neg w val hs]
    have halt : twos_complement w val < 2 ^ w := twos_complement_lt w val
    have hparse := parse_natToChars w 10 (twos_complement w val) (by decide) (by decide) halt
    have hch : checked_from_sign_and_abs w Sign.Negative (twos_complement w val)
        = some val := by
      have h1 := checked_rebuild w val h
      rw [into_sign_and_abs_neg w val hs] at h1
      exact h1
    unfold to_dec_string
    rw [hs, habs]
    simp only [signChars, List.singleton_append]
    rw [from_dec_str_eq, splitSign_minus]
    simp only [hparse, hch]

theorem claim3_witness :
    (128 : Nat) < 2 ^ 8 ∧ from_dec_str 8 (to_dec_string 8 128) = Except.ok 128 :=
  ⟨by decide, claim3_dec_round_trip 8 128 (by decide)⟩

/-! ### Claim C4 -/

/-- C4, counterexample: the claim extends the hex round trip to every bit width,
"including values whose magnitude needs more than 64 hex digits".  At
`BITS = 320` the value `2 ^ 256` is in range and positive, its magnitude
renders to 65 hex digits, and `from_hex_str` rejects the rendering with
`IntegerOverflow` because of the 64-character guard — the round trip fails. -/
theorem claim4_counterexample :
    (2 : Nat) ^ 256 < 2 ^ 320 ∧
      from_hex_str 320 (to_hex_string 320 (2 ^ 256))
        = Except.error ParseSignedError.IntegerOverflow :=
  ⟨by norm_num, rfl⟩

/-- C4 (amended): the hex round trip `from_hex_str (to_hex_string x) = Ok x`
holds for every bit width `BITS ≤ 256` (where a magnitude never needs more
than 64 hex digits); for wider types a magnitude of more than 64 hex digits is
rejected by the length guard, as the counterexample shows. -/
theorem claim4_hex_round_trip (w val : Nat) (hw : w ≤ 256) (h : val < 2 ^ w) :
    from_hex_str w (to_hex_string w val) = Except.ok val := by
  have h256 : (2 : Nat) ^ w ≤ 16 ^ 64 := by
    calc (2 : Nat) ^ w ≤ 2 ^ 256 := Nat.pow_le_pow_right (by decide) hw
      _ = 16 ^ 64 := by norm_num
  cases hs : sign w val with
  | Positive =>
    have habs : unsigned_abs w val = val := by
      unfold unsigned_abs
      rw [into_sign_and_abs_pos w val hs]
    have hlen : (natToChars 16 val).length ≤ 64 := natToChars_length_le val (by omega)
    have hsplit : splitSign ('0' :: 'x' :: natToChars 16 val)
        = (Sign.Positive, '0' :: 'x' :: natToChars 16 val) := by
      simp [splitSign]
    have hparse := parse_natToChars w 16 val (by decide) (by decide) h
    have hch : checked_from_sign_and_abs w Sign.Positive val = some val := by
      have h1 := checked_rebuild w val h
      rw [into_sign_and_abs_pos w val hs] at h1
      exact h1
    unfold to_hex_string from_hex_str
    rw [hs, habs]
    simp only [signChars, List.nil_append]
    rw [from_hex_str_with_eq, hsplit]
    simp only [strip0x_prefixed]
    rw [if_neg (by omega)]
    simp only [hparse, hch]
  | Negative =>
    have habs : unsigned_abs w val = twos_complement w val := by
      unfold unsigned_abs
      rw [into_sign_and_abs_neg w val hs]
    have halt : twos_complement w val < 2 ^ w := twos_complement_lt w val
    have hlen : (natToChars 16 (twos_complement w val)).length ≤ 64 :=
      natToChars_length_le _ (by omega)
    have hparse := parse_natToChars w 16 (twos_complement w val) (by decide) (by decide) halt
    have hch : checked_from_sign_and_abs w Sign.Negative (twos_complement w val)
        = some val := by
      have h1 := checked_rebuild w val h
      rw [into_sign_and_abs_neg w val hs] at h1
      exact h1
    unfold to_hex_string from_hex_str
    rw [hs, habs]
    simp only [signChars, List.singleton_append]
    rw [from_hex_str_with_eq, splitSign_minus]
    simp only [strip0x_prefixed]
    rw [if_neg (by omega)]
    simp only [hparse, hch]

theorem claim4_witness :
    8 ≤ 256 ∧ (171 : Nat) < 2 ^ 8 ∧
      from_hex_str 8 (to_hex_string 8 171) = Except.ok 171 :=
  ⟨by decide, by decide, claim4_hex_round_trip 8 171 (by decide) (by decide)⟩

/-! ### Claim C7 -/

/-- C7: whenever the hex digit part of the input — what remains after the
optional sign and optional `0x` prefix, restricted to hex digit characters —
is longer than 64 characters, `from_hex_str` returns `IntegerOverflow` without
invoking the word radix parser: the result is the same for *every* parser
function `p`. -/
theorem claim7_long_hex_rejected (w : Nat) (p : List Char → Except WordParseError Nat)
    (s : List Char)
    (h : 64 < ((strip0x (splitSign s).2).filter isHexDigit).length) :
    from_hex_str_with w p s = Except.error ParseSignedError.IntegerOverflow := by
  rw [from_hex_str_with_eq]
  have hle := List.length_filter_le isHexDigit (strip0x (splitSign s).2)
  rw [if_pos (by omega)]

theorem claim7_witness :
    64 < ((strip0x (splitSign (List.replicate 65 '1')).2).filter isHexDigit).length ∧
      from_hex_str_with 8 (from_str_radix 8 16) (List.replicate 65 '1')
        = Except.error ParseSignedError.IntegerOverflow :=
  ⟨by decide,
    claim7_long_hex_rejected 8 (from_str_radix 8 16) (List.replicate 65 '1') (by decide)⟩

/-! ### Claim C8 -/

/-- C8: `from_dec_str` takes an optional leading `+`/`-` (defaulting to
Positive), hands the remaining digit string to the absolute-value word parser
in base 10, and combines sign and magnitude via `checked_from_sign_and_abs`;
a word-parser digit failure is wrapped as `DigitOrBase`, a magnitude overflow
(in the parser or in the combination) and a sign/magnitude mismatch are
returned as `IntegerOverflow`. -/
theorem claim8_from_dec_str_structure (w : Nat) (s : List Char) :
    (from_dec_str w s =
      match from_str_radix w 10 (splitSign s).2 with
      | Except.error e => Except.error (convertErr e)
      | Except.ok abs =>
        match checked_from_sign_and_abs w (splitSign s).1 abs with
        | some v => Except.ok v
        | none => Except.error ParseSignedError.IntegerOverflow)
    ∧ (∀ t, s = '+' :: t → splitSign s = (Sign.Positive, t))
    ∧ (∀ t, s = '-' :: t → splitSign s = (Sign.Negative, t))
    ∧ (s.head? ≠ some '+' → s.head? ≠ some '-' → splitSign s = (Sign.Positive, s))
    ∧ (from_str_radix w 10 (splitSign s).2 = Except.error WordParseError.InvalidDigit →
        from_dec_str w s = Except.error (ParseSignedError.DigitOrBase
          WordParseError.InvalidDigit))
    ∧ (from_str_radix w 10 (splitSign s).2 = Except.error WordParseError.Overflow →
        from_dec_str w s = Except.error ParseSignedError.IntegerOverflow)
    ∧ (∀ abs, from_str_radix w 10 (splitSign s).2 = Except.ok abs →
        checked_from_sign_and_abs w (splitSign s).1 abs = none →
        from_dec_str w s = Except.error ParseSignedError.IntegerOverflow)
    ∧ (∀ abs v, from_str_radix w 10 (splitSign s).2 = Except.ok abs →
        checked_from_sign_and_abs w (splitSign s).1 abs = some v →
        from_dec_str w s = Except.ok v) := by
  refine ⟨from_dec_str_eq w s, ?_, ?_, ?_, ?_, ?_, ?_, ?_⟩
  · intro t ht
    subst ht
    simp [splitSign]
  · intro t ht
    subst ht
    exact splitSign_minus t
  · intro h1 h2
    cases s with
    | nil => rfl
    | cons c t =>
      simp only [List.head?] at h1 h2
      have hc1 : c ≠ '+' := by intro he; exact h1 (by rw [he])
      have hc2 : c ≠ '-' := by intro he; exact h2 (by rw [he])
      simp [splitSign, hc1, hc2]
  · intro hp
    rw [from_dec_str_eq, hp]
    rfl
  · intro hp
    rw [from_dec_str_eq, hp]
    rfl
  · intro abs hp hc
    rw [from_dec_str_eq, hp]
    simp only [hc]
  · intro abs v hp hc
    rw [from_dec_str_eq, hp]
    simp only [hc]

theorem claim8_witness :
    from_str_radix 8 10 (splitSign (['-', '4', '2'])).2 = Except.ok 42 ∧
      checked_from_sign_and_abs 8 (splitSign (['-', '4', '2'])).1 42 = some 214 ∧
      from_dec_str 8 (['-', '4', '2']) = Except.ok 214 :=
  ⟨rfl, rfl,
    (claim8_from_dec_str_structure 8 (['-', '4', '2'])).2.2.2.2.2.2.2 42 214 rfl rfl⟩

/-! ### Claim C10 -/

/-- C10: parsing a negatively-signed zero is rejected for every `BITS`:
`from_dec_str "-0"` and `from_hex_str "-0x0"` return `IntegerOverflow` rather
than `Ok 0`, because `checked_from_sign_and_abs(Negative, 0)` yields `none`
(the built value `0` computes as Positive). -/
theorem claim10_negative_zero (w : Nat) :
    from_dec_str w (['-', '0']) = Except.error ParseSignedError.IntegerOverflow
    ∧ from_hex_str w (['-', '0', 'x', '0']) = Except.error ParseSignedError.IntegerOverflow
    ∧ checked_from_sign_and_abs w Sign.Negative 0 = none := by
  have h0 := pow2_pos w
  have hch : checked_from_sign_and_abs w Sign.Negative 0 = none := by
    simp [checked_from_sign_and_abs, overflowing_from_sign_and_abs,
      twos_complement_zero, sign_zero]
  have hparse10 : from_str_radix w 10 (['0']) = Except.ok 0 := by
    have hp := parse_natToChars w 10 0 (by decide) (by decide) h0
    simpa [natToChars] using hp
  have hparse16 : from_str_radix w 16 (['0']) = Except.ok 0 := by
    have hp := parse_natToChars w 16 0 (by decide) (by decide) h0
    simpa [natToChars] using hp
  refine ⟨?_, ?_, hch⟩
  · rw [from_dec_str_eq, splitSign_minus]
    simp only [hparse10, hch]
  · show from_hex_str_with w (from_str_radix w 16) (['-', '0', 'x', '0'])
      = Except.error ParseSignedError.IntegerOverflow
    rw [from_hex_str_with_eq, splitSign_minus]
    have hstrip : strip0x (['0', 'x', '0']) = ['0'] := strip0x_prefixed (['0'])
    simp only [hstrip]
    rw [if_neg (by decide : ¬(64 < (['0'] : List Char).length))]
    simp only [hparse16, hch]

/-! ### Bit counting: `count_ones`, `trailing_zeros` and the `bits` condition -/

theorem popcountAux_zero : ∀ f, popcountAux f 0 = 0 := by
  intro f
  cases f <;> simp [popcountAux]

theorem popcountAux_irrel : ∀ f1 f2 n, n ≤ f1 → n ≤ f2 →
    popcountAux f1 n = popcountAux f2 n := by
  intro f1
  induction f1 with
  | zero =>
    intro f2 n h1 h2
    have hn : n = 0 := by omega
    subst hn
    rw [popcountAux_zero, popcountAux_zero]
  | succ f ih =>
    intro f2 n h1 h2
    by_cases hn : n = 0
    · subst hn
      rw [popcountAux_zero, popcountAux_zero]
    · obtain ⟨g, rfl⟩ : ∃ g, f2 = g + 1 := ⟨f2 - 1, by omega⟩
      simp only [popcountAux]
      rw [if_neg hn, if_neg hn]
      congr 1
      exact ih g (n / 2) (by omega) (by omega)

theorem count_ones_rec (n : Nat) (h : n ≠ 0) :
    count_ones n = n % 2 + count_ones (n / 2) := by
  obtain ⟨m, rfl⟩ : ∃ m, n = m + 1 := ⟨n - 1, by omega⟩
  show popcountAux (m + 1) (m + 1) = _
  simp only [popcountAux]
  rw [if_neg (by omega : ¬(m + 1 = 0))]
  congr 1
  exact popcountAux_irrel m ((m + 1) / 2) ((m + 1) / 2) (by omega) (by omega)

theorem tzAux_zero_val : ∀ f w, tzAux f w 0 = w := by
  intro f w
  cases f <;> simp [tzAux]

theorem tzAux_irrel : ∀ f1 f2 w n, n ≤ f1 → n ≤ f2 → tzAux f1 w n = tzAux f2 w n := by
  intro f1
  induction f1 with
  | zero =>
    intro f2 w n h1 h2
    have hn : n = 0 := by omega
    subst hn
    rw [tzAux_zero_val, tzAux_zero_val]
  | succ f ih =>
    intro f2 w n h1 h2
    by_cases hn : n = 0
    · subst hn
      rw [tzAux_zero_val, tzAux_zero_val]
    · obtain ⟨g, rfl⟩ : ∃ g, f2 = g + 1 := ⟨f2 - 1, by omega⟩
      simp only [tzAux]
      rw [if_neg hn, if_neg hn]
      by_cases ho : n % 2 = 1
      · rw [if_pos ho, if_pos ho]
      · rw [if_neg ho, if_neg ho]
        congr 1
        exact ih g (w - 1) (n / 2) (by omega) (by omega)

theorem trailing_zeros_zero_val (w : Nat) : trailing_zeros w 0 = w := rfl

theorem trailing_zeros_odd (w n : Nat) (h : n % 2 = 1) : trailing_zeros w n = 0 := by
  obtain ⟨m, rfl⟩ : ∃ m, n = m + 1 := ⟨n - 1, by omega⟩
  show tzAux (m + 1) w (m + 1) = 0
  simp only [tzAux]
  rw [if_neg (by omega : ¬(m + 1 = 0)), if_pos h]

theorem trailing_zeros_even (w n : Nat) (h : n ≠ 0) (he : n % 2 = 0) :
    trailing_zeros w n = trailing_zeros (w - 1) (n / 2) + 1 := by
  obtain ⟨m, rfl⟩ : ∃ m, n = m + 1 := ⟨n - 1, by omega⟩
  show tzAux (m + 1) w (m + 1) = _
  simp only [tzAux]
  rw [if_neg (by omega : ¬(m + 1 = 0)), if_neg (by omega : ¬((m + 1) % 2 = 1))]
  congr 1
  exact tzAux_irrel m ((m + 1) / 2) (w - 1) ((m + 1) / 2) (by omega) (by omega)

theorem count_ones_le : ∀ w n, n < 2 ^ w → count_ones n ≤ w := by
  intro w
  induction w with
  | zero =>
    intro n h
    rw [pow_zero] at h
    have hn : n = 0 := by omega
    subst hn
    rw [show count_ones 0 = 0 from rfl]
  | succ v ih =>
    intro n h
    by_cases hn : n = 0
    · subst hn
      rw [show count_ones 0 = 0 from rfl]
      omega
    · rw [count_ones_rec n hn]
      have hp : 2 ^ (v + 1) = 2 * 2 ^ v := by rw [pow_succ]; ring
      have hhalf : n / 2 < 2 ^ v := by omega
      have := ih (n / 2) hhalf
      omega

theorem count_ones_eq_iff : ∀ w n, n < 2 ^ w → (count_ones n = w ↔ n = 2 ^ w - 1) := by
  intro w
  induction w with
  | zero =>
    intro n h
    rw [pow_zero] at h ⊢
    have hn : n = 0 := by omega
    subst hn
    rw [show count_ones 0 = 0 from rfl]
    omega
  | succ v ih =>
    intro n h
    have hp : 2 ^ (v + 1) = 2 * 2 ^ v := by rw [pow_succ]; ring
    have h2v := pow2_pos v
    by_cases hn : n = 0
    · subst hn
      rw [show count_ones 0 = 0 from rfl]
      constructor <;> omega
    · rw [count_ones_rec n hn]
      have hhalf : n / 2 < 2 ^ v := by omega
      have hle := count_ones_le v (n / 2) hhalf
      have hiff := ih (n / 2) hhalf
      constructor
      · intro hsum
        have hco : count_ones (n / 2) = v := by omega
        have h1 := hiff.mp hco
        omega
      · intro hEq
        have hhalfeq : n / 2 = 2 ^ v - 1 := by omega
        have := hiff.mpr hhalfeq
        omega

/-- The `count_zeros == trailing_zeros` test of `bits` holds exactly for the
zero pattern and the patterns `0b1…10…0`, i.e. `2 ^ BITS - 2 ^ k`. -/
theorem cz_eq_tz_iff : ∀ w n, n < 2 ^ w →
    (count_zeros w n = trailing_zeros w n ↔
      (n = 0 ∨ ∃ k, k < w ∧ n = 2 ^ w - 2 ^ k)) := by
  intro w
  induction w with
  | zero =>
    intro n h
    rw [pow_zero] at h
    have hn : n = 0 := by omega
    subst hn
    simp [count_zeros, trailing_zeros_zero_val]
  | succ v ih =>
    intro n h
    have hp : 2 ^ (v + 1) = 2 * 2 ^ v := by rw [pow_succ]; ring
    have h2v := pow2_pos v
    by_cases hn : n = 0
    · subst hn
      simp [count_zeros, show count_ones 0 = 0 from rfl, trailing_zeros_zero_val]
    · by_cases hodd : n % 2 = 1
      · rw [trailing_zeros_odd (v + 1) n hodd]
        unfold count_zeros
        have hle := count_ones_le (v + 1) n h
        have hiff := count_ones_eq_iff (v + 1) n h
        constructor
        · intro hcz
          have hco : count_ones n = v + 1 := by omega
          have hne := hiff.mp hco
          exact Or.inr ⟨0, by omega, by rw [pow_zero]; exact hne⟩
        · intro hrhs
          rcases hrhs with h0 | ⟨k, hk, hkeq⟩
          · exact absurd h0 hn
          · have hk0 : k = 0 := by
              by_contra hk0
              have hkp : 2 ^ k = 2 * 2 ^ (k - 1) := by
                conv_lhs => rw [show k = (k - 1) + 1 by omega]
                rw [pow_succ]; ring
              omega
            subst hk0
            rw [pow_zero] at hkeq
            have hco : count_ones n = v + 1 := hiff.mpr hkeq
            omega
      · have heven : n % 2 = 0 := by omega
        rw [trailing_zeros_even (v + 1) n hn heven]
        simp only [Nat.add_sub_cancel]
        unfold count_zeros
        rw [count_ones_rec n hn, heven, Nat.zero_add]
        have hhalf : n / 2 < 2 ^ v := by omega
        have hhn : n / 2 ≠ 0 := by omega
        have hle := count_ones_le v (n / 2) hhalf
        have hiffv := ih (n / 2) hhalf
        unfold count_zeros at hiffv
        constructor
        · intro hcz
          have hlhs : v - count_ones (n / 2) = trailing_zeros v (n / 2) := by omega
          rcases hiffv.mp hlhs with h0 | ⟨k, hk, hkeq⟩
          · exact absurd h0 hhn
          · refine Or.inr ⟨k + 1, by omega, ?_⟩
            have hkp : 2 ^ (k + 1) = 2 * 2 ^ k := by rw [pow_succ]; ring
            have h2k := pow2_pos k
            omega
        · intro hrhs
          rcases hrhs with h0 | ⟨k, hk, hkeq⟩
          · exact absurd h0 hn
          · have hk0 : k ≠ 0 := by
              intro hk0
              subst hk0
              rw [pow_zero] at hkeq
              omega
            have hkp : 2 ^ k = 2 * 2 ^ (k - 1) := by
              conv_lhs => rw [show k = (k - 1) + 1 by omega]
              rw [pow_succ]; ring
            have h2k := pow2_pos (k - 1)
            have hhalfeq : n / 2 = 2 ^ v - 2 ^ (k - 1) := by omega
            have hlhs := hiffv.mpr (Or.inr ⟨k - 1, by omega, hhalfeq⟩)
            omega

/-- Unfolding `bits` with the let-bindings resolved. -/
theorem bits_eq (w val : Nat) :
    bits w val = if count_zeros w val = trailing_zeros w val
      then bit_len (unsigned_abs w val) else bit_len (unsigned_abs w val) + 1 := rfl

/-! ### Claim C5 -/

/-- C5: `bits` returns the minimal signed bit length: `0` for zero; the
unsigned bit length of the absolute value when the value is a negative power
of two (sign Negative and magnitude a power of two, bit pattern `0b1…10…0`);
and the unsigned bit length of the absolute value plus one for every other
value. -/
theorem claim5_bits (w val : Nat) (h : val < 2 ^ w) :
    (val = 0 → bits w val = 0)
    ∧ (sign w val = Sign.Negative → (∃ k, unsigned_abs w val = 2 ^ k) →
        bits w val = bit_len (unsigned_abs w val))
    ∧ (val ≠ 0 →
        ¬(sign w val = Sign.Negative ∧ ∃ k, unsigned_abs w val = 2 ^ k) →
        bits w val = bit_len (unsigned_abs w val) + 1) := by
  refine ⟨?_, ?_, ?_⟩
  · intro h0
    subst h0
    rw [bits_eq, if_pos ((cz_eq_tz_iff w 0 h).mpr (Or.inl rfl))]
    have habs : unsigned_abs w 0 = 0 := by
      unfold unsigned_abs
      rw [into_sign_and_abs_pos w 0 (sign_zero w)]
    rw [habs]
    rfl
  · intro hs hex
    obtain ⟨k, hk⟩ := hex
    obtain ⟨hw, hv⟩ := (sign_neg_iff w val h).mp hs
    have hp : 0 < val := lt_of_lt_of_le (pow2_pos (w - 1)) hv
    have habs : unsigned_abs w val = 2 ^ w - val := by
      unfold unsigned_abs
      rw [into_sign_and_abs_neg w val hs, twos_complement_eq w val hp h]
    rw [habs] at hk
    have hval : val = 2 ^ w - 2 ^ k := by omega
    have hklt : k < w := by
      by_contra hklt
      have hge : 2 ^ w ≤ 2 ^ k := Nat.pow_le_pow_right (by decide) (by omega)
      omega
    rw [bits_eq, if_pos ((cz_eq_tz_iff w val h).mpr (Or.inr ⟨k, hklt, hval⟩))]
  · intro h0 hnot
    have hcond : ¬(count_zeros w val = trailing_zeros w val) := by
      intro hcz
      rcases (cz_eq_tz_iff w val h).mp hcz with hz | ⟨k, hk, hkeq⟩
      · exact h0 hz
      · apply hnot
        have hw : w ≠ 0 := by omega
        have h2k := pow2_pos k
        have hkle : 2 ^ k ≤ 2 ^ (w - 1) := Nat.pow_le_pow_right (by decide) (by omega)
        have h2w1 : 2 ^ w = 2 * 2 ^ (w - 1) := by
          conv_lhs => rw [show w = (w - 1) + 1 by omega]
          rw [pow_succ]; ring
        have hv : 2 ^ (w - 1) ≤ val := by omega
        have hs : sign w val = Sign.Negative := (sign_neg_iff w val h).mpr ⟨hw, hv⟩
        refine ⟨hs, k, ?_⟩
        have hp : 0 < val := by omega
        unfold unsigned_abs
        rw [into_sign_and_abs_neg w val hs, twos_complement_eq w val hp h]
        omega
    rw [bits_eq, if_neg hcond]

theorem claim5_witness :
    (248 : Nat) < 2 ^ 8 ∧ sign 8 248 = Sign.Negative ∧ unsigned_abs 8 248 = 2 ^ 3 ∧
      bits 8 248 = bit_len (unsigned_abs 8 248) ∧ bits 8 248 = 4 :=
  ⟨by decide, rfl, rfl, (claim5_bits 8 248 (by decide)).2.1 rfl ⟨3, rfl⟩, rfl⟩

end Alloy
